import Mathlib

/-!
Shallow embedding of the core of `tsk` (a trie-based dictionary lookup TUI
written in Go): the prefix index (trie), the phrase matcher, the
cross-reference expander and the gloss loader, together with theorems about
the specification claims.

Conventions used throughout:
* Go `rune` iteration over a string is modelled by `String.data : List Char`
  (both iterate Unicode code points).
* A Go `map[rune]*TrieNode` is modelled as an association list
  `List (Char × TrieNode)`; a fresh key is appended at the end
  (`Trie.Insert` is the only writer).  Go's `range` over a map visits the
  entries in an unspecified order that may change from one loop to the next,
  so every function that ranges over the children takes an explicit
  iteration-order parameter `ord` applied to the stored association list;
  an actual Go execution corresponds to an `ord` that permutes each list.
* Recursion over the tree is by an explicit fuel argument; the public
  entry points pass `TrieNode.size` (the node count of the subtree), which
  always exceeds the height, so the fuel never runs out on real calls.
-/

/-- The result cap from the Go source: `TRIE_MAX_SEARCH_DEPTH = 50`. -/
def TRIE_MAX_SEARCH_DEPTH : Nat := 50

/-- Go struct `TrieNode { children map[rune]*TrieNode; isEnd bool }`. -/
inductive TrieNode : Type where
  | mk (children : List (Char × TrieNode)) (isEnd : Bool)

/-- Projection for the `children` field. -/
def TrieNode.children : TrieNode → List (Char × TrieNode)
  | .mk cs _ => cs

/-- Projection for the `isEnd` field. -/
def TrieNode.isEnd : TrieNode → Bool
  | .mk _ e => e

/-- Go `newTrieNode()`: empty children map, not terminal. -/
def newTrieNode : TrieNode := .mk [] false

/-- Lookup `cs[c]` in a children association list (Go map read). -/
def childFind : List (Char × TrieNode) → Char → Option TrieNode
  | [], _ => none
  | (c', t) :: rest, c => if c' = c then some t else childFind rest c

/-- Replace the value stored at key `c` (Go map write to an existing key). -/
def childReplace : List (Char × TrieNode) → Char → TrieNode → List (Char × TrieNode)
  | [], _, _ => []
  | (c', t') :: rest, c, t =>
    if c' = c then (c', t) :: rest else (c', t') :: childReplace rest c t

/-- Core of Go `(t *Trie) Insert(word string)`: walk the word rune by rune,
creating missing nodes (`node.children[ch] = newTrieNode()`), and mark the
final node terminal (`node.isEnd = true`). -/
def TrieNode.insertChars : List Char → TrieNode → TrieNode
  | [], .mk cs _ => .mk cs true
  | c :: rest, .mk cs e =>
    match childFind cs c with
    | some t => .mk (childReplace cs c (TrieNode.insertChars rest t)) e
    | none => .mk (cs ++ [(c, TrieNode.insertChars rest newTrieNode)]) e

mutual

/-- Total number of nodes in a subtree; used as recursion fuel by the
traversal entry points (any bound on the height would do, and the node count
is one such bound). -/
def TrieNode.size : TrieNode → Nat
  | .mk cs _ => 1 + sizeChildren cs

/-- Sum of `TrieNode.size` over the values of a children list. -/
def sizeChildren : List (Char × TrieNode) → Nat
  | [] => 0
  | (_, t) :: rest => TrieNode.size t + sizeChildren rest

end

/-- Go struct `Trie { root *TrieNode }`. -/
structure Trie where
  root : TrieNode

/-- Go `NewTrie()`. -/
def NewTrie : Trie := ⟨newTrieNode⟩

/-- Go `(t *Trie) Insert(word string)`. -/
def Trie.Insert (t : Trie) (word : String) : Trie :=
  ⟨t.root.insertChars word.data⟩

/-- An iteration order for the children map: Go's `range` over
`map[rune]*TrieNode` yields the entries in an unspecified arrangement, so the
traversal functions receive the arrangement as a function applied to the
stored association list.  A faithful order permutes every list. -/
abbrev ChildOrd : Type := List (Char × TrieNode) → List (Char × TrieNode)

/-- The identity arrangement (children visited in insertion order). -/
def idOrd : ChildOrd := fun cs => cs

/-- The reversed arrangement (children visited backwards). -/
def revOrd : ChildOrd := fun cs => cs.reverse

/-- Go `(node *TrieNode) collectWords(prefix string, words *[]string)`:

```
if len(*words) >= TRIE_MAX_SEARCH_DEPTH { return }
if node.isEnd {
    *words = append(*words, prefix)
    if len(*words) >= TRIE_MAX_SEARCH_DEPTH { return }
}
for ch, child := range node.children {
    child.collectWords(prefix+string(ch), words)
    if len(*words) >= TRIE_MAX_SEARCH_DEPTH { return }
}
```

The two early `return`s after the cap has been reached are equivalent to
letting the remaining recursive calls run, because every call returns its
accumulator unchanged once the cap is reached (the check at the top); the
fold below uses that equivalence.  `fuel` bounds the recursion depth; the
public caller passes `TrieNode.size` of the node, which is always
sufficient. -/
def TrieNode.collectWords : Nat → ChildOrd → TrieNode → String → List String → List String
  | 0, _, _, _, words => words
  | fuel + 1, ord, node, pre, words =>
    if TRIE_MAX_SEARCH_DEPTH ≤ words.length then words
    else
      let words := if node.isEnd then words ++ [pre] else words
      (ord node.children).foldl
        (fun ws ct => TrieNode.collectWords fuel ord ct.2 (pre.push ct.1) ws) words

/-- Walk down the trie consuming the query's runes (the loop at the top of
Go `FindWords`); `none` when some rune has no matching child. -/
def TrieNode.walk : TrieNode → List Char → Option TrieNode
  | node, [] => some node
  | node, c :: cs =>
    match childFind node.children c with
    | none => none
    | some t => t.walk cs

/-- Go `(t *Trie) FindWords(prefix string) []string`, with the map
iteration order made explicit. -/
def Trie.FindWords (t : Trie) (ord : ChildOrd) (p : String) : List String :=
  match t.root.walk p.data with
  | none => []
  | some node => node.collectWords node.size ord p []

/-- Go `(t *Trie) CountNodes() int`: the total node count of the live tree
(the same quantity as the fuel measure `TrieNode.size`). -/
def Trie.CountNodes (t : Trie) : Nat :=
  t.root.size

/-- The uncapped, insertion-ordered enumeration of the terminal words of a
subtree.  This is not a Go function; it is the reference enumeration used to
say how many stored headwords carry a given prefix when stating properties
of the capped `collectWords`. -/
def TrieNode.allWords : Nat → TrieNode → String → List String
  | 0, _, _ => []
  | fuel + 1, node, pre =>
    (if node.isEnd then [pre] else []) ++
      node.children.flatMap (fun ct => TrieNode.allWords fuel ct.2 (pre.push ct.1))

/-- All stored headwords that extend the query `p` (reference enumeration,
uncapped; same walk as `Trie.FindWords`). -/
def Trie.allMatches (t : Trie) (p : String) : List String :=
  match t.root.walk p.data with
  | none => []
  | some node => node.allWords node.size p

/-- The caller of `FindWords` in the TUI (`updateList` in the Go source):
it clears the list and, when the search text is empty, returns before ever
querying the index; otherwise the displayed items are exactly
`trie.FindWords(text)`.  The returned list models the items added. -/
def updateList (t : Trie) (ord : ChildOrd) (text : String) : List String :=
  if text = "" then []
  else t.FindWords ord text

/-- Go `unicode.IsSpace`: the Unicode White_Space property (the set is the
one hard-coded in Go's `unicode` package). -/
def goIsSpace (c : Char) : Bool :=
  c == ' ' || c == '\t' || c == '\n' || c == '\x0b' || c == '\x0c' || c == '\r' ||
    c.toNat == 0x85 || c.toNat == 0xA0 || c.toNat == 0x1680 ||
    (0x2000 ≤ c.toNat && c.toNat ≤ 0x200A) ||
    c.toNat == 0x2028 || c.toNat == 0x2029 || c.toNat == 0x202F ||
    c.toNat == 0x205F || c.toNat == 0x3000

/-- Accumulator pass for `goFields`: `cur` holds the current token reversed. -/
def fieldsAux : List Char → List Char → List (List Char)
  | [], cur => if cur.isEmpty then [] else [cur.reverse]
  | c :: cs, cur =>
    if goIsSpace c then
      if cur.isEmpty then fieldsAux cs [] else cur.reverse :: fieldsAux cs []
    else fieldsAux cs (c :: cur)

/-- Go `strings.Fields(s)`: the maximal runs of non-whitespace runes. -/
def goFields (s : String) : List String :=
  (fieldsAux s.data []).map String.mk

/-- Go `len(s)` on a string: the number of UTF-8 bytes, i.e. the sum of the
UTF-8 sizes of the runes (Go strings hold UTF-8 bytes). -/
def goLen (s : String) : Nat :=
  s.data.foldl (fun n c => n + c.utf8Size) 0

/-- The key set built by Go `initDeeperPrefixes`: each phrase with one
trailing space appended (`key := phrase + " "`); `deeperPrefixMap` holds
exactly these keys. -/
def deeperKeys (phrases : List String) : List String :=
  phrases.map (fun p => p ++ " ")

/-- First-occurrence deduplication (models collecting values into the Go set
`lengthSet map[int]struct{}`). -/
def dedupAux : List Nat → List Nat → List Nat
  | [], _ => []
  | x :: xs, seen => if x ∈ seen then dedupAux xs seen else x :: dedupAux xs (x :: seen)

/-- Distinct values of a list, first occurrences kept. -/
def dedupFirst (l : List Nat) : List Nat :=
  dedupAux l []

/-- Insert into a descending-sorted list, keeping it descending. -/
def insertDesc (x : Nat) : List Nat → List Nat
  | [] => [x]
  | y :: ys => if y < x then x :: y :: ys else y :: insertDesc x ys

/-- Sort a list in descending order (models Go
`sort.Sort(sort.Reverse(sort.IntSlice(...)))`; the Go slice is filled by
ranging over `lengthSet` in an unspecified order, but after sorting, any
order of the same distinct values yields the same slice). -/
def sortDesc (l : List Nat) : List Nat :=
  l.foldl (fun acc x => insertDesc x acc) []

/-- Go `initDeeperPrefixes`'s `deeperPrefixLengths`: the distinct values of
`len(key)` over the derived keys — `len` on a Go string counts UTF-8
BYTES — sorted in descending order. -/
def deeperPrefixLengths (phrases : List String) : List Nat :=
  sortDesc (dedupFirst ((deeperKeys phrases).map goLen))

/-- Modelled from the spec: the same length table as `deeperPrefixLengths`,
but with each key's length measured "in Unicode code points", as §4.2 of the
spec describes it.  Kept separate so the two can be compared. -/
def deeperPrefixLengthsSpec (phrases : List String) : List Nat :=
  sortDesc (dedupFirst ((deeperKeys phrases).map String.length))

/-- Descending loop of Go `findLongestPrefix` (v0.0.6): try the candidate
made of the first `i` fields, for `i` from the field count down to 1. -/
def findLongestPrefixAux (keys : List String) (ws : List String) : Nat → Option String
  | 0 => none
  | i + 1 =>
    let candidate := String.intercalate " " (ws.take (i + 1)) ++ " "
    if candidate ∈ keys then some candidate else findLongestPrefixAux keys ws i

/-- Go `findLongestPrefix(s string) (string, bool)` of the current (v0.0.6)
source: split `s` into whitespace-delimited fields, then for `i` from the
field count down to 1 build `strings.Join(words[:i], " ") + " "` and return
the first candidate found in `deeperPrefixMap` (here: the key list). -/
def findLongestPrefix (keys : List String) (s : String) : Option String :=
  findLongestPrefixAux keys (goFields s) (goFields s).length

/-- Go `strings.TrimSpace(s)`: leading and trailing Unicode whitespace
removed. -/
def goTrimSpace (s : String) : String :=
  String.mk (((s.data.dropWhile goIsSpace).reverse.dropWhile goIsSpace).reverse)

/-- Go `strings.TrimRight(s, cutset)`: trailing runes contained in the
cutset removed. -/
def goTrimRight (s : String) (cutset : List Char) : String :=
  String.mk ((s.data.reverse.dropWhile (fun c => cutset.contains c)).reverse)

/-- Go `strings.HasPrefix(s, pre)`. -/
def goHasPrefix (s pre : String) : Bool :=
  pre.data.isPrefixOf s.data

/-- Go `strings.TrimPrefix(s, pre)`: the leading `pre` removed when `s`
starts with it, otherwise `s` unchanged. -/
def goTrimPrefix (s pre : String) : String :=
  if goHasPrefix s pre then String.mk (s.data.drop pre.data.length) else s

/-- Go `if idx := strings.Index(target, string(c)); idx != -1 { target =
strings.TrimSpace(target[:idx]) }`: when the rune occurs, keep what stands
before its first occurrence and trim it. -/
def truncAtChar (s : String) (c : Char) : String :=
  if s.data.contains c then goTrimSpace (String.mk (s.data.takeWhile (fun d => d != c)))
  else s

/-- The local helper `extractTarget(meaning, prefix string)` inside Go
`getDeeperGlosses`:

```
target := strings.TrimRight(strings.TrimSpace(strings.TrimPrefix(meaning, prefix)), ".,:;!?")
if idx := strings.Index(target, "("); idx != -1 { target = strings.TrimSpace(target[:idx]) }
if idx := strings.Index(target, ";"); idx != -1 { target = strings.TrimSpace(target[:idx]) }
return target
``` -/
def extractTarget (meaning key : String) : String :=
  let target := goTrimRight (goTrimSpace (goTrimPrefix meaning key)) ['.', ',', ':', ';', '!', '?']
  let target := truncAtChar target '('
  let target := truncAtChar target ';'
  target

/-- Drop a leading run of whitespace (recursive formulation, used by the
spec-side pipeline). -/
def dropLeadingSpaces : List Char → List Char
  | [] => []
  | c :: cs => if goIsSpace c then dropLeadingSpaces cs else c :: cs

/-- Drop a trailing run of characters satisfying `p` (recursive
formulation working from the front, used by the spec-side pipeline). -/
def dropTrailing (p : Char → Bool) : List Char → List Char
  | [] => []
  | c :: cs =>
    let rest := dropTrailing p cs
    if rest.isEmpty && p c then [] else c :: rest

/-- Everything before the first occurrence of `c` (the whole list when `c`
does not occur). -/
def takeUntil (c : Char) : List Char → List Char
  | [] => []
  | d :: ds => if d == c then [] else d :: takeUntil c ds

/-- C7's description of the target-extraction pipeline, step by step in the
claim's own order: the matched key removed from the start, whitespace
trimmed, trailing characters from the set {., ,, :, ;, !, ?} stripped from
the right, then truncation-plus-trim at the first parenthesis when one is
present, then truncation-plus-trim at the first semicolon when one is
present.  Written with independent primitives so it can be compared with
`extractTarget` as translated from the source. -/
def specExtractTarget (meaning key : String) : String :=
  let r1 : List Char :=
    if key.data.isPrefixOf meaning.data then meaning.data.drop key.data.length
    else meaning.data
  let r2 := dropTrailing goIsSpace (dropLeadingSpaces r1)
  let r3 := dropTrailing (fun c => c == '.' || c == ',' || c == ':' || c == ';' ||
    c == '!' || c == '?') r2
  let r4 :=
    if '(' ∈ r3 then dropTrailing goIsSpace (dropLeadingSpaces (takeUntil '(' r3))
    else r3
  let r5 :=
    if ';' ∈ r4 then dropTrailing goIsSpace (dropLeadingSpaces (takeUntil ';' r4))
    else r4
  String.mk r5

/-- Go struct `Gloss { Word, Pos string; Meanings []string }`. -/
structure Gloss where
  word : String
  pos : String
  meanings : List String
deriving DecidableEq

/-- Read of the Go map `map[string][]Gloss` with its `ok` flag; the store is
modelled as an association list whose keys are pairwise distinct (the loader
below appends to an existing entry rather than duplicating a key). -/
def lookupGlosses : List (String × List Gloss) → String → Option (List Gloss)
  | [], _ => none
  | (w, gs) :: rest, k => if w = k then some gs else lookupGlosses rest k

/-- One write `glosses[g.Word] = append(glosses[g.Word], g)` of the Go
loader. -/
def appendGloss : List (String × List Gloss) → Gloss → List (String × List Gloss)
  | [], g => [(g.word, [g])]
  | (w, gs) :: rest, g =>
    if w = g.word then (w, gs ++ [g]) :: rest else (w, gs) :: appendGloss rest g

/-- Loop of Go `loadGlosses` / `loadGlossesFromJSONL`: scan the lines in
order; `json.Unmarshal` (external to this core, hence a parameter) either
yields a record, which is appended to the store, or fails, in which case
the loader returns the error at once (`return nil, err`). -/
def loadGlossesAux (parse : String → Except String Gloss) :
    List String → List (String × List Gloss) → Except String (List (String × List Gloss))
  | [], m => .ok m
  | line :: rest, m =>
    match parse line with
    | .error e => .error e
    | .ok g => loadGlossesAux parse rest (appendGloss m g)

/-- Go `loadGlosses() (map[string][]Gloss, error)`, starting from the empty
store. -/
def loadGlosses (parse : String → Except String Gloss) (lines : List String) :
    Except String (List (String × List Gloss)) :=
  loadGlossesAux parse lines []

/-- Whether a load attempt succeeded. -/
def exceptOk {ε α : Type} : Except ε α → Bool
  | .ok _ => true
  | .error _ => false

/-- One line written by Go `getDeeperGlosses` into its `strings.Builder`:
either a gloss header line `fmt.Sprintf(glossFormat, tg.Word, tg.Pos)` or a
meaning line `fmt.Sprintf(meaningFormat, tm)`, each tagged with the
recursion level that chose the format string (level 1 and level 2 use
different indentation/colors; no other data enters the format). -/
inductive Emit where
  | gloss (word pos : String) (level : Nat)
  | meaning (text : String) (level : Nat)
deriving DecidableEq

/-- Go `getDeeperGlosses(text string, glosses map[string][]Gloss, level int) string`:

```
if level > 2 { return "" }
if prefix, found := findLongestPrefix(text); found {
    target := extractTarget(text, prefix)
    if targetGlosses, ok := glosses[target]; ok {
        for _, tg := range targetGlosses {
            builder.WriteString(fmt.Sprintf(glossFormat, tg.Word, tg.Pos))
            for _, tm := range tg.Meanings {
                builder.WriteString(fmt.Sprintf(meaningFormat, tm))
                builder.WriteString(getDeeperGlosses(tm, glosses, level+1))
            }
        }
    }
}
```

The builder's output is modelled as the list of written lines (`Emit`),
in write order.  `fuel` makes the recursion structural; every chain of
calls out of the real entry point (`level = 1`) stops at `level = 3` by the
`level > 2` test after exactly two nested calls, so fuel `3` is never
exhausted there. -/
def getDeeperGlossesF (glosses : List (String × List Gloss)) (keys : List String) :
    Nat → String → Nat → List Emit
  | 0, _, _ => []
  | f + 1, text, level =>
    if 2 < level then []
    else
      match findLongestPrefix keys text with
      | none => []
      | some key =>
        match lookupGlosses glosses (extractTarget text key) with
        | none => []
        | some tgs =>
          tgs.flatMap (fun tg =>
            Emit.gloss tg.word tg.pos level ::
              tg.meanings.flatMap (fun tm =>
                Emit.meaning tm level :: getDeeperGlossesF glosses keys f tm (level + 1)))

/-- Go `getDeeperGlosses` as called by `generateGlossText` (entry level 1;
fuel 3 covers the two levels the `level > 2` test admits). -/
def getDeeperGlosses (glosses : List (String × List Gloss)) (keys : List String)
    (text : String) (level : Nat) : List Emit :=
  getDeeperGlossesF glosses keys 3 text level

/-- A two-word index, used to exhibit order-dependent traversal. -/
def pairTrie : Trie :=
  (NewTrie.Insert "a").Insert "b"

/-- A sixty-word index (sixty distinct one-character headwords), used to
exhibit the 50-match cap. -/
def bigTrie : Trie :=
  (List.range 60).foldl (fun t i => t.Insert (String.mk [Char.ofNat (65 + i)])) NewTrie

/-- Round-trip check of the embedding on the spec's concrete scenario. -/
example :
    (((NewTrie.Insert "koira").Insert "koiran").Insert "kala").FindWords idOrd "koi"
      = ["koira", "koiran"] := by decide

example :
    (((NewTrie.Insert "koira").Insert "koiran").Insert "kala").FindWords idOrd "z"
      = [] := by decide

/-- Unfolding of the descending candidate loop of `findLongestPrefix` as a
first-hit search over the explicit descending candidate list. -/
theorem findLongestPrefixAux_eq_find (keys ws : List String) :
    ∀ n, findLongestPrefixAux keys ws n =
      ((List.range n).reverse.map
        (fun i => String.intercalate " " (ws.take (i + 1)) ++ " ")).find?
        (fun c => decide (c ∈ keys)) := by
  intro n
  induction n with
  | zero => simp [findLongestPrefixAux]
  | succ n ih =>
    rw [List.range_succ]
    simp only [List.reverse_append, List.reverse_cons, List.reverse_nil, List.nil_append,
      List.singleton_append, List.map_cons, List.find?_cons]
    by_cases h : (String.intercalate " " (ws.take (n + 1)) ++ " ") ∈ keys
    · simp [findLongestPrefixAux, h]
    · simp [findLongestPrefixAux, h, ih]

/-- C4: phrase matching is longest-match-first.  `findLongestPrefix` equals
the first-hit search over the candidates built from the first `k`
whitespace-delimited tokens (joined with single spaces, trailing space
appended) for `k` descending from the token count to 1; and with both "see"
and "see also" stored, "see also the manual" matches "see also ", not
"see ". -/
theorem claim_C4_longest_match_first :
    (∀ (keys : List String) (s : String),
      findLongestPrefix keys s =
        ((List.range (goFields s).length).reverse.map
          (fun i => String.intercalate " " ((goFields s).take (i + 1)) ++ " ")).find?
          (fun c => decide (c ∈ keys))) ∧
    findLongestPrefix (deeperKeys ["see", "see also"]) "see also the manual"
      = some "see also " := by
  exact ⟨fun keys s => findLongestPrefixAux_eq_find keys (goFields s) _, by decide⟩

/-- C10: when the leading tokens of a meaning match a stored phrase but are
not separated by exactly single spaces (here: a double space), the matcher
still reports the match, the returned key is not a literal prefix of the
meaning, `strings.TrimPrefix` leaves the meaning unchanged, and the derived
cross-reference target is the cleaned-up ENTIRE meaning, reference phrase
included (so the subsequent store lookup uses the whole meaning). -/
theorem claim_C10_nonliteral_match_keeps_meaning :
    findLongestPrefix (deeperKeys ["see also"]) "see  also koira." = some "see also " ∧
    goHasPrefix "see  also koira." "see also " = false ∧
    goTrimPrefix "see  also koira." "see also " = "see  also koira." ∧
    extractTarget "see  also koira." "see also " = "see  also koira" ∧
    extractTarget "see  also koira." "see also " ≠ "koira" ∧
    getDeeperGlosses [("koira", [⟨"koira", "n", ["dog"]⟩])] (deeperKeys ["see also"])
      "see  also koira." 1 = [] := by
  refine ⟨by decide, by decide, by decide, by decide, by decide, by decide⟩

/-- C1 counterexample: `FindWords("")` does NOT return an empty sequence for
every index; on the index holding just "a" it returns ["a"] — the empty
result for an empty query is not enforced by the Prefix Index operation. -/
theorem claim_C1_counterexample :
    (NewTrie.Insert "a").FindWords idOrd "" = ["a"] ∧
    (NewTrie.Insert "a").FindWords idOrd "" ≠ ([] : List String) := by
  exact ⟨by decide, by decide⟩

/-- C1 amended: the empty-query convention is enforced by the caller — the
TUI's `updateList` returns an empty item list without querying the index
whenever the search text is empty — while the index operation itself,
applied to the empty string, enumerates stored headwords (e.g. ["a"] on the
one-word index). -/
theorem claim_C1_empty_query_enforced_by_caller :
    (∀ (t : Trie) (ord : ChildOrd), updateList t ord "" = []) ∧
    (NewTrie.Insert "a").FindWords idOrd "" = ["a"] := by
  exact ⟨fun t ord => rfl, by decide⟩

/-- Error propagation of the gloss-loading loop: one bad line anywhere makes
the whole load fail (the loop stops at the first bad line and returns its
error). -/
theorem loadGlossesAux_error (parse : String → Except String Gloss) :
    ∀ (lines : List String) (m : List (String × List Gloss)),
      (∃ line ∈ lines, exceptOk (parse line) = false) →
      exceptOk (loadGlossesAux parse lines m) = false := by
  intro lines
  induction lines with
  | nil => rintro m ⟨l, hl, _⟩; cases hl
  | cons line rest ih =>
    rintro m ⟨l, hl, hbad⟩
    cases hp : parse line with
    | error e => simp [loadGlossesAux, hp, exceptOk]
    | ok g =>
      simp only [loadGlossesAux, hp]
      rcases List.mem_cons.mp hl with heq | hmem
      · rw [heq, hp] at hbad; simp [exceptOk] at hbad
      · exact ih _ ⟨l, hmem, hbad⟩

/-- When every line parses, the loading loop succeeds. -/
theorem loadGlossesAux_ok (parse : String → Except String Gloss) :
    ∀ (lines : List String) (m : List (String × List Gloss)),
      (∀ line ∈ lines, exceptOk (parse line) = true) →
      exceptOk (loadGlossesAux parse lines m) = true := by
  intro lines
  induction lines with
  | nil => intro m _; simp [loadGlossesAux, exceptOk]
  | cons line rest ih =>
    intro m h
    cases hp : parse line with
    | error e =>
      have := h line (List.mem_cons_self line rest)
      rw [hp] at this; simp [exceptOk] at this
    | ok g =>
      simp only [loadGlossesAux, hp]
      exact ih _ (fun l hl => h l (List.mem_cons_of_mem _ hl))

/-- C9: if any line of the bulk gloss dataset fails to parse, loading the
Lexeme Store returns an error (no malformed record is skipped, and — since
the error constructor carries no store — no partially-parsed store is
produced); and when every line parses, loading succeeds. -/
theorem claim_C9_malformed_record_aborts (parse : String → Except String Gloss)
    (lines : List String) :
    ((∃ line ∈ lines, exceptOk (parse line) = false) →
      exceptOk (loadGlosses parse lines) = false) ∧
    ((∀ line ∈ lines, exceptOk (parse line) = true) →
      exceptOk (loadGlosses parse lines) = true) := by
  exact ⟨fun h => loadGlossesAux_error parse lines [] h,
    fun h => loadGlossesAux_ok parse lines [] h⟩

/-- A concrete JSONL parser stand-in that rejects one specific line. -/
def parseW : String → Except String Gloss := fun s =>
  if s = "bad line" then .error "malformed record" else .ok ⟨s, "n", []⟩

/-- Witness for C9 at a concrete parser and concrete line lists. -/
theorem claim_C9_witness :
    exceptOk (loadGlosses parseW ["koira", "bad line", "kissa"]) = false ∧
    exceptOk (loadGlosses parseW ["koira", "kissa"]) = true := by
  constructor
  · exact (claim_C9_malformed_record_aborts parseW ["koira", "bad line", "kissa"]).1
      ⟨"bad line", by decide, by decide⟩
  · exact (claim_C9_malformed_record_aborts parseW ["koira", "kissa"]).2 (by decide)

/-- The recursive leading-whitespace trim agrees with `dropWhile`. -/
theorem dropLeadingSpaces_eq (l : List Char) :
    dropLeadingSpaces l = l.dropWhile goIsSpace := by
  induction l with
  | nil => rfl
  | cons c cs ih =>
    by_cases h : goIsSpace c <;> simp [dropLeadingSpaces, List.dropWhile_cons, h, ih]

/-- The recursive trailing trim agrees with reverse-dropWhile-reverse. -/
theorem dropTrailing_eq (p : Char → Bool) (l : List Char) :
    dropTrailing p l = (l.reverse.dropWhile p).reverse := by
  induction l with
  | nil => rfl
  | cons c cs ih =>
    rw [List.reverse_cons, List.dropWhile_append]
    by_cases h : (cs.reverse.dropWhile p).isEmpty
    · have hrest : dropTrailing p cs = [] := by
        rw [ih, List.isEmpty_iff.mp h]; rfl
      by_cases hc : p c <;>
        simp [dropTrailing, hrest, hc, h, List.dropWhile_cons]
    · have hrest : dropTrailing p cs ≠ [] := by
        rw [ih]
        intro hh
        exact absurd (List.isEmpty_iff.mpr (by simpa using hh)) h
      have hre : (dropTrailing p cs).isEmpty = false := by
        rcases hx : dropTrailing p cs with _ | ⟨y, ys⟩
        · exact absurd hx hrest
        · rfl
      rw [if_neg h]
      simp only [dropTrailing, hre, Bool.false_and, Bool.false_eq_true, if_false]
      rw [ih, List.reverse_append]
      rfl

/-- Cutting at the first occurrence agrees with `takeWhile` on "not yet the
character". -/
theorem takeUntil_eq (c : Char) (l : List Char) :
    takeUntil c l = l.takeWhile (fun d => d != c) := by
  induction l with
  | nil => rfl
  | cons d ds ih =>
    by_cases h : d = c
    · simp [takeUntil, h, List.takeWhile_cons]
    · simp [takeUntil, h, List.takeWhile_cons, ih]

/-- Boolean equality on characters is the decidable-equality test. -/
theorem char_beq_eq_decide (a b : Char) : (a == b) = decide (a = b) := by
  by_cases h : a = b <;> simp [h]

/-- Membership in the punctuation cutset, written out. -/
theorem punct_contains (c : Char) :
    (['.', ',', ':', ';', '!', '?'] : List Char).contains c =
      (c == '.' || c == ',' || c == ':' || c == ';' || c == '!' || c == '?') := by
  simp [List.contains_cons, char_beq_eq_decide, Bool.or_assoc]

/-- Character-list view of `goTrimPrefix`. -/
theorem data_goTrimPrefix (s k : String) :
    (goTrimPrefix s k).data =
      if k.data.isPrefixOf s.data then s.data.drop k.data.length else s.data := by
  by_cases h : k.data.isPrefixOf s.data <;> simp [goTrimPrefix, goHasPrefix, h]

/-- Character-list view of `goTrimSpace`. -/
theorem data_goTrimSpace (s : String) :
    (goTrimSpace s).data = dropTrailing goIsSpace (dropLeadingSpaces s.data) := by
  rw [dropTrailing_eq, dropLeadingSpaces_eq]; rfl

/-- Character-list view of `goTrimRight` at the punctuation cutset. -/
theorem data_goTrimRight_punct (s : String) :
    (goTrimRight s ['.', ',', ':', ';', '!', '?']).data =
      dropTrailing (fun c => c == '.' || c == ',' || c == ':' || c == ';' ||
        c == '!' || c == '?') s.data := by
  have hp : (fun c => (['.', ',', ':', ';', '!', '?'] : List Char).contains c) =
      (fun c => c == '.' || c == ',' || c == ':' || c == ';' || c == '!' || c == '?') :=
    funext punct_contains
  rw [dropTrailing_eq]
  show (s.data.reverse.dropWhile (fun c =>
    (['.', ',', ':', ';', '!', '?'] : List Char).contains c)).reverse = _
  rw [hp]

/-- Character-list view of `truncAtChar`. -/
theorem data_truncAtChar (s : String) (c : Char) :
    (truncAtChar s c).data =
      if c ∈ s.data then dropTrailing goIsSpace (dropLeadingSpaces (takeUntil c s.data))
      else s.data := by
  by_cases h : c ∈ s.data
  · have hc : s.data.contains c = true := by simpa using h
    rw [if_pos h]
    simp only [truncAtChar, hc, if_true]
    rw [data_goTrimSpace]
    show dropTrailing goIsSpace (dropLeadingSpaces (s.data.takeWhile (fun d => d != c))) = _
    rw [takeUntil_eq]
  · have hc : s.data.contains c = false := by simpa using h
    rw [if_neg h]
    simp [truncAtChar, hc, h]

/-- C7: the headword handed to the Lexeme Store lookup — `extractTarget` in
the Go source, which `getDeeperGlosses` applies to the meaning and the
matched key — equals the spec's pipeline applied in exactly the stated
order: key removed from the start, whitespace trimmed, trailing characters
from {., ,, :, ;, !, ?} stripped from the right, then truncate-and-trim at
the first parenthesis when present, then truncate-and-trim at the first
semicolon when present. -/
theorem claim_C7_extract_target_pipeline (meaning key : String) :
    extractTarget meaning key = specExtractTarget meaning key := by
  apply String.ext
  simp only [extractTarget, specExtractTarget, data_truncAtChar,
    data_goTrimRight_punct, data_goTrimSpace, data_goTrimPrefix]

/-- After replacing the value at a present key, lookup finds the new value. -/
theorem childFind_childReplace_self (cs : List (Char × TrieNode)) (c : Char)
    (t₀ x : TrieNode) (h : childFind cs c = some t₀) :
    childFind (childReplace cs c x) c = some x := by
  induction cs with
  | nil => simp [childFind] at h
  | cons p rest ih =>
    obtain ⟨c', t'⟩ := p
    by_cases hc : c' = c
    · simp [childFind, childReplace, hc]
    · simp only [childFind, childReplace, hc, if_false, if_neg hc] at h ⊢
      exact ih h

/-- Replacing at the same key twice keeps only the second value. -/
theorem childReplace_childReplace (cs : List (Char × TrieNode)) (c : Char)
    (x y : TrieNode) :
    childReplace (childReplace cs c x) c y = childReplace cs c y := by
  induction cs with
  | nil => rfl
  | cons p rest ih =>
    obtain ⟨c', t'⟩ := p
    by_cases hc : c' = c
    · simp [childReplace, hc]
    · simp [childReplace, hc, ih]

/-- Appending a fresh key makes it findable. -/
theorem childFind_append_of_none (cs : List (Char × TrieNode)) (c : Char)
    (x : TrieNode) (h : childFind cs c = none) :
    childFind (cs ++ [(c, x)]) c = some x := by
  induction cs with
  | nil => simp [childFind]
  | cons p rest ih =>
    obtain ⟨c', t'⟩ := p
    by_cases hc : c' = c
    · simp [childFind, hc] at h
    · simp only [childFind, List.cons_append, hc, if_neg hc] at h ⊢
      exact ih h

/-- Replacing at a key that only the appended entry carries rewrites just
that entry. -/
theorem childReplace_append_of_none (cs : List (Char × TrieNode)) (c : Char)
    (x y : TrieNode) (h : childFind cs c = none) :
    childReplace (cs ++ [(c, x)]) c y = cs ++ [(c, y)] := by
  induction cs with
  | nil => simp [childReplace]
  | cons p rest ih =>
    obtain ⟨c', t'⟩ := p
    by_cases hc : c' = c
    · simp [childFind, hc] at h
    · simp only [childFind, hc, if_neg hc] at h
      simp [childReplace, hc, ih h]

/-- Inserting the same word twice produces the identical tree. -/
theorem insertChars_insertChars (w : List Char) : ∀ (t : TrieNode),
    TrieNode.insertChars w (TrieNode.insertChars w t) = TrieNode.insertChars w t := by
  induction w with
  | nil => intro t; cases t; rfl
  | cons c rest ih =>
    intro t
    cases t with
    | mk cs e =>
      cases h : childFind cs c with
      | some t₀ =>
        simp only [TrieNode.insertChars, h]
        rw [childFind_childReplace_self cs c t₀ (TrieNode.insertChars rest t₀) h]
        dsimp only
        rw [ih t₀, childReplace_childReplace]
      | none =>
        simp only [TrieNode.insertChars, h]
        rw [childFind_append_of_none cs c (TrieNode.insertChars rest newTrieNode) h]
        dsimp only
        rw [ih newTrieNode, childReplace_append_of_none cs c _ _ h]

/-- C8: `insert` is idempotent — inserting a word twice yields a trie
identical in node structure and terminal marks to inserting it once, so
every later `FindWords` (under any child-iteration order) and `CountNodes`
result is unchanged. -/
theorem claim_C8_insert_idempotent (w : String) (t : Trie) :
    (t.Insert w).Insert w = t.Insert w ∧
    (∀ (ord : ChildOrd) (p : String),
      ((t.Insert w).Insert w).FindWords ord p = (t.Insert w).FindWords ord p) ∧
    ((t.Insert w).Insert w).CountNodes = (t.Insert w).CountNodes := by
  have h : (t.Insert w).Insert w = t.Insert w :=
    congrArg Trie.mk (insertChars_insertChars w.data t.root)
  exact ⟨h, fun ord p => by rw [h], by rw [h]⟩

/-- One-byte UTF-8 encoding for code points below 128. -/
theorem utf8Size_eq_one_of_lt (c : Char) (h : c.toNat < 128) : c.utf8Size = 1 := by
  have h' : c.val ≤ UInt32.ofNatCore 0x7F (by decide) := by
    rw [UInt32.le_def, BitVec.le_def]
    exact Nat.lt_succ_iff.mp h
  simp only [Char.utf8Size]
  rw [if_pos h']

/-- On ASCII-only strings Go's byte length agrees with the code-point
count. -/
theorem goLen_of_ascii (s : String) (h : ∀ c ∈ s.data, c.toNat < 128) :
    goLen s = s.length := by
  have key : ∀ (l : List Char) (n : Nat), (∀ c ∈ l, c.toNat < 128) →
      l.foldl (fun n c => n + c.utf8Size) n = n + l.length := by
    intro l
    induction l with
    | nil => intro n _; simp
    | cons c cs ih =>
      intro n hall
      rw [List.foldl_cons, utf8Size_eq_one_of_lt c (hall c (by simp)),
        ih _ (fun d hd => hall d (by simp [hd]))]
      simp only [List.length_cons]
      omega
  have h0 := key s.data 0 h
  rw [Nat.zero_add] at h0
  exact h0

/-- C6 counterexample: for the phrase "nähdä" (which contains the two-byte
rune 'ä' twice) the stored length table holds the UTF-8 byte length 8 of the
key "nähdä ", not its code-point length 6 — the lengths are NOT measured in
Unicode code points. -/
theorem claim_C6_counterexample :
    deeperPrefixLengths ["nähdä"] = [8] ∧
    deeperPrefixLengthsSpec ["nähdä"] = [6] ∧
    deeperPrefixLengths ["nähdä"] ≠ deeperPrefixLengthsSpec ["nähdä"] := by
  refine ⟨by decide, by decide, by decide⟩

/-- C6 amended: the derived key of each phrase is the phrase plus one
trailing space (as claimed), but the derived distinct key lengths are
measured in UTF-8 bytes (`len` on a Go string); the table agrees with the
code-point table exactly when every phrase is ASCII-only. -/
theorem claim_C6_keys_and_ascii_lengths (phrases : List String)
    (h : ∀ p ∈ phrases, ∀ c ∈ p.data, c.toNat < 128) :
    deeperKeys phrases = phrases.map (fun p => p ++ " ") ∧
    deeperPrefixLengths phrases = deeperPrefixLengthsSpec phrases := by
  refine ⟨rfl, ?_⟩
  unfold deeperPrefixLengths deeperPrefixLengthsSpec
  have hmap : (deeperKeys phrases).map goLen = (deeperKeys phrases).map String.length := by
    apply List.map_congr_left
    intro k hk
    obtain ⟨p, hp, rfl⟩ := List.mem_map.mp hk
    apply goLen_of_ascii
    intro c hc
    rw [String.data_append] at hc
    rcases List.mem_append.mp hc with hcp | hcs
    · exact h p hp c hcp
    · have hsp : c = ' ' := by simpa using hcs
      rw [hsp]; decide
  rw [hmap]

/-- Witness for C6's amended claim at a concrete ASCII phrase list. -/
theorem claim_C6_witness :
    deeperKeys ["see also"] = ["see also"].map (fun p => p ++ " ") ∧
    deeperPrefixLengths ["see also"] = deeperPrefixLengthsSpec ["see also"] :=
  claim_C6_keys_and_ascii_lengths ["see also"] (by decide)

/-- C3: expansion stops at depth 2 — with any store carrying a reference
chain A→B→C→D (each single-entry, single-meaning, each meaning matching a
reference phrase whose extracted target is the next headword), expanding A's
meaning at depth 1 emits exactly B's gloss header and meaning (level 1) and
C's gloss header and meaning (level 2); D's gloss header is never emitted
(whenever D's headword differs from B's and C's), nor is D's meaning
(whenever it differs from B's and C's meanings), because the third-level
call returns at the `level > 2` test.  Also, the `level > 2` cut-off holds
outright at every fuel. -/
theorem claim_C3_two_level_recursion_cap
    (g : List (String × List Gloss)) (keys : List String)
    (mA kA wB posB mB kB wC posC mC kC wD posD mD : String)
    (hA1 : findLongestPrefix keys mA = some kA)
    (hA2 : extractTarget mA kA = wB)
    (hB : lookupGlosses g wB = some [⟨wB, posB, [mB]⟩])
    (hB1 : findLongestPrefix keys mB = some kB)
    (hB2 : extractTarget mB kB = wC)
    (hC : lookupGlosses g wC = some [⟨wC, posC, [mC]⟩])
    (hC1 : findLongestPrefix keys mC = some kC)
    (hC2 : extractTarget mC kC = wD)
    (hD : lookupGlosses g wD = some [⟨wD, posD, [mD]⟩]) :
    getDeeperGlosses g keys mA 1 =
      [.gloss wB posB 1, .meaning mB 1, .gloss wC posC 2, .meaning mC 2] ∧
    (∀ level, 2 < level → getDeeperGlosses g keys mA level = []) ∧
    (wD ≠ wB → wD ≠ wC → ∀ l pos, Emit.gloss wD pos l ∉ getDeeperGlosses g keys mA 1) ∧
    (mD ≠ mB → mD ≠ mC → ∀ l, Emit.meaning mD l ∉ getDeeperGlosses g keys mA 1) := by
  have hmain : getDeeperGlosses g keys mA 1 =
      [.gloss wB posB 1, .meaning mB 1, .gloss wC posC 2, .meaning mC 2] := by
    unfold getDeeperGlosses
    simp [getDeeperGlossesF, hA1, hA2, hB, hB1, hB2, hC, hC1, hC2, hD]
  refine ⟨hmain, ?_, ?_, ?_⟩
  · intro level hl
    unfold getDeeperGlosses
    simp only [getDeeperGlossesF, if_pos hl]
  · intro h1 h2 l pos
    rw [hmain]
    simp [h1, h2]
  · intro h1 h2 l
    rw [hmain]
    simp [h1, h2]

/-- A concrete store with the reference chain B→C→D (A is the meaning
"ref B." being expanded). -/
def chainStore : List (String × List Gloss) :=
  [("B", [⟨"B", "n", ["ref C."]⟩]),
   ("C", [⟨"C", "n", ["ref D."]⟩]),
   ("D", [⟨"D", "n", ["deep"]⟩])]

/-- Witness for C3 on the concrete chain: B and C are surfaced, D never. -/
theorem claim_C3_witness :
    getDeeperGlosses chainStore (deeperKeys ["ref"]) "ref B." 1 =
      [.gloss "B" "n" 1, .meaning "ref C." 1, .gloss "C" "n" 2, .meaning "ref D." 2] ∧
    (∀ l pos, Emit.gloss "D" pos l ∉ getDeeperGlosses chainStore (deeperKeys ["ref"]) "ref B." 1) ∧
    (∀ l, Emit.meaning "deep" l ∉ getDeeperGlosses chainStore (deeperKeys ["ref"]) "ref B." 1) := by
  have h := claim_C3_two_level_recursion_cap chainStore (deeperKeys ["ref"])
    "ref B." "ref " "B" "n" "ref C." "ref " "C" "n" "ref D." "ref " "D" "n" "deep"
    (by decide) (by decide) (by decide) (by decide) (by decide) (by decide)
    (by decide) (by decide) (by decide)
  exact ⟨h.1, h.2.2.1 (by decide) (by decide), h.2.2.2 (by decide) (by decide)⟩

/-- The capped collector never grows past the cap (or past the accumulator
it was handed, when that is already over the cap). -/
theorem collectWords_length_le (fuel : Nat) :
    ∀ (ord : ChildOrd) (node : TrieNode) (pre : String) (ws : List String),
      (TrieNode.collectWords fuel ord node pre ws).length ≤
        max ws.length TRIE_MAX_SEARCH_DEPTH := by
  induction fuel with
  | zero => intro ord node pre ws; exact Nat.le_max_left ..
  | succ n ih =>
    intro ord node pre ws
    simp only [TrieNode.collectWords]
    by_cases h : TRIE_MAX_SEARCH_DEPTH ≤ ws.length
    · rw [if_pos h]; exact Nat.le_max_left ..
    · rw [if_neg h]
      have hstart : (if node.isEnd then ws ++ [pre] else ws).length ≤ TRIE_MAX_SEARCH_DEPTH := by
        by_cases he : node.isEnd <;> simp [he] <;> omega
      have fold : ∀ (l : List (Char × TrieNode)) (a : List String),
          a.length ≤ TRIE_MAX_SEARCH_DEPTH →
          (l.foldl (fun ws ct => TrieNode.collectWords n ord ct.2 (pre.push ct.1) ws) a).length
            ≤ TRIE_MAX_SEARCH_DEPTH := by
        intro l
        induction l with
        | nil => intro a ha; simpa using ha
        | cons ct rest ihl =>
          intro a ha
          rw [List.foldl_cons]
          apply ihl
          have hb := ih ord ct.2 (pre.push ct.1) a
          omega
      exact Nat.le_trans (fold _ _ hstart) (Nat.le_max_right ..)

set_option maxRecDepth 10000 in
/-- C2: `FindWords` never returns more than 50 entries, for any prefix, any
index, and any child-iteration order; the bound is reached silently — on a
sixty-word index the empty-prefix query returns exactly 50 of the 60
matching headwords, with no error value distinguishing the truncation. -/
theorem claim_C2_result_cap :
    (∀ (t : Trie) (ord : ChildOrd) (p : String),
      (t.FindWords ord p).length ≤ TRIE_MAX_SEARCH_DEPTH) ∧
    (bigTrie.FindWords idOrd "").length = TRIE_MAX_SEARCH_DEPTH ∧
    TRIE_MAX_SEARCH_DEPTH < (bigTrie.allMatches "").length := by
  refine ⟨?_, by decide, by decide⟩
  intro t ord p
  cases hw : t.root.walk p.data with
  | none => simp [Trie.FindWords, hw]
  | some node =>
    have h := collectWords_length_le node.size ord node p []
    simp only [Trie.FindWords, hw]
    simpa using h

/-- C5 counterexample: on the fixed two-word index {"a","b"} (inserted in
that order), two admissible map-iteration orders — insertion order and its
reverse, both permutations of the stored children — make `FindWords("")`
return different sequences, so two calls need not return identical
sequences. -/
theorem claim_C5_counterexample :
    List.Perm (revOrd pairTrie.root.children) pairTrie.root.children ∧
    pairTrie.FindWords idOrd "" = ["a", "b"] ∧
    pairTrie.FindWords revOrd "" = ["b", "a"] ∧
    pairTrie.FindWords idOrd "" ≠ pairTrie.FindWords revOrd "" := by
  refine ⟨List.reverse_perm _, by decide, by decide, by decide⟩

/-- Below the cap, the capped collector gathers exactly the reference
enumeration (as a multiset) on top of its accumulator, whichever
permutation the child iteration uses. -/
theorem collectWords_perm_spec (fuel : Nat) :
    ∀ (ord : ChildOrd), (∀ l, List.Perm (ord l) l) →
    ∀ (node : TrieNode) (pre : String) (acc : List String),
      acc.length + (TrieNode.allWords fuel node pre).length ≤ TRIE_MAX_SEARCH_DEPTH →
      (TrieNode.collectWords fuel ord node pre acc : Multiset String) =
        (acc : Multiset String) + (TrieNode.allWords fuel node pre : Multiset String) := by
  induction fuel with
  | zero =>
    intro ord hord node pre acc hcap
    simp [TrieNode.collectWords, TrieNode.allWords]
  | succ n ih =>
    intro ord hord node pre acc hcap
    simp only [TrieNode.collectWords]
    by_cases h : TRIE_MAX_SEARCH_DEPTH ≤ acc.length
    · rw [if_pos h]
      have hlen : (TrieNode.allWords (n + 1) node pre).length = 0 := by omega
      rw [List.length_eq_zero.mp hlen]
      simp
    · rw [if_neg h]
      have fold : ∀ (l : List (Char × TrieNode)) (a : List String),
          a.length + (l.flatMap (fun ct => TrieNode.allWords n ct.2 (pre.push ct.1))).length
              ≤ TRIE_MAX_SEARCH_DEPTH →
          ((l.foldl (fun ws ct => TrieNode.collectWords n ord ct.2 (pre.push ct.1) ws) a :
              List String) : Multiset String) =
            (a : Multiset String) +
              (l.flatMap (fun ct => TrieNode.allWords n ct.2 (pre.push ct.1)) :
                Multiset String) := by
        intro l
        induction l with
        | nil => intro a ha; simp
        | cons ct rest ihl =>
          intro a ha
          rw [List.flatMap_cons, List.length_append] at ha
          rw [List.foldl_cons]
          have hb := ih ord hord ct.2 (pre.push ct.1) a (by omega)
          have hblen : (TrieNode.collectWords n ord ct.2 (pre.push ct.1) a).length
              = a.length + (TrieNode.allWords n ct.2 (pre.push ct.1)).length := by
            have hcard := congrArg Multiset.card hb
            simpa using hcard
          rw [ihl _ (by omega), hb, List.flatMap_cons]
          rw [add_assoc]
          simp [← Multiset.coe_add]
      have hcs := hord node.children
      have hpermflat :=
        hcs.flatMap_right (fun ct => TrieNode.allWords n ct.2 (pre.push ct.1))
      have hlenflat :
          ((ord node.children).flatMap
              (fun ct => TrieNode.allWords n ct.2 (pre.push ct.1))).length
            = (node.children.flatMap
                (fun ct => TrieNode.allWords n ct.2 (pre.push ct.1))).length :=
        hpermflat.length_eq
      have hcoe :
          ((ord node.children).flatMap
              (fun ct => TrieNode.allWords n ct.2 (pre.push ct.1)) : Multiset String)
            = (node.children.flatMap
                (fun ct => TrieNode.allWords n ct.2 (pre.push ct.1)) : Multiset String) :=
        Multiset.coe_eq_coe.mpr hpermflat
      simp only [TrieNode.allWords] at hcap ⊢
      by_cases he : node.isEnd
      · rw [if_pos he] at hcap ⊢
        simp only [List.length_append, List.length_singleton] at hcap
        rw [fold (ord node.children) (acc ++ [pre])
          (by simp only [List.length_append, List.length_singleton]; rw [hlenflat]; omega)]
        rw [hcoe]
        simp [he, add_assoc]
      · rw [if_neg he] at hcap ⊢
        simp only [List.nil_append] at hcap ⊢
        rw [fold (ord node.children) acc (by rw [hlenflat]; omega)]
        rw [hcoe]
        simp [he]

/-- C5 amended: for a fixed index, two calls of `FindWords` with the same
prefix agree as multisets — the same headwords, though possibly in different
orders — under any two (permutation-valid) map-iteration orders, PROVIDED at
most 50 stored headwords share the prefix; both calls then return exactly
the stored matches.  (When more than 50 match, which 50 are returned depends
on the iteration order, and even below the cap the sequence order differs —
see the counterexample.) -/
theorem claim_C5_same_multiset_below_cap (t : Trie) (p : String)
    (ord₁ ord₂ : ChildOrd)
    (h₁ : ∀ l, List.Perm (ord₁ l) l) (h₂ : ∀ l, List.Perm (ord₂ l) l)
    (hcap : (t.allMatches p).length ≤ TRIE_MAX_SEARCH_DEPTH) :
    (t.FindWords ord₁ p : Multiset String) = (t.FindWords ord₂ p : Multiset String) ∧
    (t.FindWords ord₁ p : Multiset String) = (t.allMatches p : Multiset String) := by
  cases hw : t.root.walk p.data with
  | none =>
    constructor <;> simp [Trie.FindWords, Trie.allMatches, hw]
  | some node =>
    have hcap' : (0 : Nat) + (TrieNode.allWords node.size node p).length
        ≤ TRIE_MAX_SEARCH_DEPTH := by
      simp only [Trie.allMatches, hw] at hcap
      simpa using hcap
    have e1 := collectWords_perm_spec node.size ord₁ h₁ node p [] (by simpa using hcap')
    have e2 := collectWords_perm_spec node.size ord₂ h₂ node p [] (by simpa using hcap')
    constructor
    · simp only [Trie.FindWords, hw]
      rw [e1, e2]
    · simp only [Trie.FindWords, Trie.allMatches, hw]
      rw [e1]
      simp

/-- Witness for C5's amended claim on the two-word index: under the cap the
two iteration orders return the same multiset of matches. -/
theorem claim_C5_witness :
    (pairTrie.FindWords idOrd "" : Multiset String)
      = (pairTrie.FindWords revOrd "" : Multiset String) ∧
    (pairTrie.FindWords idOrd "" : Multiset String)
      = (pairTrie.allMatches "" : Multiset String) :=
  claim_C5_same_multiset_below_cap pairTrie "" idOrd revOrd
    (fun l => List.Perm.refl l) (fun l => List.reverse_perm l) (by decide)
